import Mathlib

/-!
Shallow embedding of the wavelet-denoising core of this repository
(`wavelet_denoise.py`): the orchestration functions `wavelet_denoise` and
`extract_noise` are translated directly from the Python source.  Real-valued
samples are modelled by `ℚ` (the source's arithmetic is exact real arithmetic
up to floating-point rounding; every operation the repository itself performs
is rational).  The external `pywt` transform calls (`pywt.wavedec2`,
`pywt.waverec2`) and the irrational numpy factor `np.sqrt (2 * np.log n)` are
modelled as an abstract library record `PyWtLib`: the repository treats them
as black boxes, and every theorem below quantifies over the library (or fixes
a concrete instance in a witness).  The elementwise shrinker
`pywt.threshold` is modelled concretely from its documented soft/hard
semantics, which the repository relies on.
-/

/-- A 2-D array of real samples, row-major (models a numpy 2-D array). -/
abbrev Mat := List (List ℚ)

/-- Flattened absolute values of a 2-D array: models `np.abs(a)` followed by
the implicit flattening that `np.median` performs. -/
def matAbs (m : Mat) : List ℚ :=
  m.flatten.map (fun x => |x|)

/-- Insert a value into an ascending-sorted list, keeping it sorted. -/
def insort (x : ℚ) : List ℚ → List ℚ
  | [] => [x]
  | y :: ys => if x ≤ y then x :: y :: ys else y :: insort x ys

/-- Ascending insertion sort (structural recursion, so concrete medians
reduce in the kernel); models the sort inside `np.median`. -/
def sortAsc : List ℚ → List ℚ
  | [] => []
  | x :: xs => insort x (sortAsc xs)

/-- Models `np.median` on a flattened array: sort, then take the middle
element (odd length) or the mean of the two middle elements (even length).
`np.median` of an empty array is NaN; that case never arises in the pipeline
and is mapped to `0` here, unused by any theorem. -/
def median (l : List ℚ) : ℚ :=
  let s := sortAsc l
  let n := s.length
  if n % 2 = 1 then s.getD (n / 2) 0
  else (s.getD (n / 2 - 1) 0 + s.getD (n / 2) 0) / 2

/-- Total number of elements: models `image.size` for a numpy array. -/
def matSize (m : Mat) : ℕ :=
  (m.map List.length).sum

/-- numpy shape of a rectangular 2-D array: (rows, columns of first row). -/
def shapeOf (m : Mat) : ℕ × ℕ :=
  (m.length, (m.headD []).length)

/-- Models the crop `a[:h, :w]` (numpy slicing truncates at array bounds). -/
def crop (m : Mat) (h w : ℕ) : Mat :=
  (m.take h).map (fun row => row.take w)

/-- numpy `np.sign` restricted to the use inside soft thresholding. -/
def qsign (x : ℚ) : ℚ :=
  if 0 < x then 1 else if x < 0 then -1 else 0

/-- Models `pywt.threshold(data, t, mode)` at a single coefficient:
`soft` gives `sign x * max (|x| - t) 0`, `hard` keeps `x` exactly when
`|x| > t` and zeroes it otherwise.  For any other mode string `pywt`
raises `ValueError`; that branch is mapped to `0` and no theorem uses it. -/
def threshold1 (mode : String) (t x : ℚ) : ℚ :=
  if mode = "soft" then qsign x * max (|x| - t) 0
  else if mode = "hard" then (if t < |x| then x else 0)
  else 0

/-- Models `pywt.threshold` applied elementwise to a whole subband. -/
def pywt_threshold (m : Mat) (t : ℚ) (mode : String) : Mat :=
  m.map (fun row => row.map (threshold1 mode t))

/-- The coefficient tree returned by `pywt.wavedec2`: one approximation
subband plus detail levels ordered coarsest first, each detail level a
`(horizontal, vertical, diagonal)` triple — exactly the list
`[cA, (cH₁,cV₁,cD₁), …]` the Python code indexes. -/
structure Coeffs where
  approx : Mat
  details : List (Mat × Mat × Mat)
deriving DecidableEq

/-- The external transform library as the repository uses it:
`wavedec2 image wavelet level`, `waverec2 coeffs wavelet`, and
`sqrt2log n` standing for the irrational `np.sqrt (2 * np.log n)`. -/
structure PyWtLib where
  wavedec2 : Mat → String → ℕ → Coeffs
  waverec2 : Coeffs → String → Mat
  sqrt2log : ℕ → ℚ

/-- Per-subband noise level, source lines 39 and 63:
`np.median(np.abs(detail)) / 0.6745`. -/
def local_sigma_of (detail : Mat) : ℚ :=
  median (matAbs detail) / 0.6745

/-- Source lines 35–40: when no sigma is supplied, a single global estimate
is computed from a separate 1-level decomposition; `coeffs[-1]` is its last
(only) detail level, and `np.median(np.abs(...))` runs over all three
orientations of that level stacked together. -/
def estimate_global_sigma (lib : PyWtLib) (image : Mat) (wavelet : String) : ℚ :=
  let coeffs := lib.wavedec2 image wavelet 1
  let last := coeffs.details.getLastD ([], [], [])
  median ((matAbs last.1 ++ matAbs last.2.1) ++ matAbs last.2.2) / 0.6745

/-- The sigma actually used downstream: the supplied one, else the estimate. -/
def resolve_sigma (lib : PyWtLib) (image : Mat) (wavelet : String) :
    Option ℚ → ℚ
  | some s => s
  | none => estimate_global_sigma lib image wavelet

/-- Source lines 61–69: the adaptive per-orientation threshold, `j` the
enumeration index of the `(cH, cV, cD)` tuple (so `j = 2` is diagonal). -/
def adaptive_threshold (level_factor : ℚ) (j : ℕ) (detail : Mat) : ℚ :=
  let local_sigma := local_sigma_of detail
  if j = 2 then local_sigma * level_factor * 2
  else local_sigma * level_factor * 1.5

/-- The body of the loop over detail levels, source lines 55–93; `i` is the
1-based level index of the loop (`i = 1` the coarsest detail level).  The
`bayes` branch and the final catch-all branch are kept textually separate,
as in the source, though they compute the same threshold. -/
def shrink_level (method mode : String) (threshold_factor sigma visuT : ℚ)
    (i : ℕ) (lvl : Mat × Mat × Mat) : Mat × Mat × Mat :=
  if method = "adaptive" then
    let level_factor := threshold_factor * (0.5 : ℚ) ^ (i - 1)
    (pywt_threshold lvl.1 (adaptive_threshold level_factor 0 lvl.1) mode,
     pywt_threshold lvl.2.1 (adaptive_threshold level_factor 1 lvl.2.1) mode,
     pywt_threshold lvl.2.2 (adaptive_threshold level_factor 2 lvl.2.2) mode)
  else if method = "bayes" then
    let threshold := sigma * threshold_factor * visuT
    (pywt_threshold lvl.1 threshold mode,
     pywt_threshold lvl.2.1 threshold mode,
     pywt_threshold lvl.2.2 threshold mode)
  else
    let threshold := sigma * threshold_factor * visuT
    (pywt_threshold lvl.1 threshold mode,
     pywt_threshold lvl.2.1 threshold mode,
     pywt_threshold lvl.2.2 threshold mode)

/-- The loop `for i in range(1, len(coeffs))`, source line 51, threading the
1-based level counter. -/
def thresh_details (method mode : String) (threshold_factor sigma visuT : ℚ) :
    ℕ → List (Mat × Mat × Mat) → List (Mat × Mat × Mat)
  | _, [] => []
  | i, lvl :: rest =>
      shrink_level method mode threshold_factor sigma visuT i lvl ::
      thresh_details method mode threshold_factor sigma visuT (i + 1) rest

/-- Source lines 46–93: `coeffs_thresh` keeps the approximation subband
(`coeffs_thresh[0] = coeffs[0]`) and shrinks every detail level. -/
def thresh_coeffs (method mode : String) (threshold_factor sigma visuT : ℚ)
    (coeffs : Coeffs) : Coeffs :=
  { approx := coeffs.approx
    details := thresh_details method mode threshold_factor sigma visuT 1 coeffs.details }

/-- Source lines 16–103, `wavelet_denoise`: resolve sigma, decompose,
shrink the detail subbands, reconstruct, and crop to the input shape when
the reconstruction's shape differs. -/
def wavelet_denoise (lib : PyWtLib) (image : Mat) (wavelet : String)
    (sigma : Option ℚ) (mode method : String) (levels : ℕ)
    (threshold_factor : ℚ) : Mat :=
  let s := resolve_sigma lib image wavelet sigma
  let coeffs := lib.wavedec2 image wavelet levels
  let coeffs_thresh :=
    thresh_coeffs method mode threshold_factor s (lib.sqrt2log (matSize image)) coeffs
  let denoised := lib.waverec2 coeffs_thresh wavelet
  if shapeOf denoised = shapeOf image then denoised
  else crop denoised (shapeOf image).1 (shapeOf image).2

/-- Elementwise difference of two same-shaped arrays (numpy `-`). -/
def matSub (a b : Mat) : Mat :=
  List.zipWith (List.zipWith (fun x y => x - y)) a b

/-- Elementwise sum of two same-shaped arrays (numpy `+`). -/
def matAdd (a b : Mat) : Mat :=
  List.zipWith (List.zipWith (fun x y => x + y)) a b

/-- Source lines 105–110: `noise = original - denoised`, nothing else. -/
def extract_noise (original denoised : Mat) : Mat :=
  matSub original denoised

/-- The detail level at 1-based index `i` (1 = coarsest) of a tree. -/
def detailAt (c : Coeffs) (i : ℕ) : Mat × Mat × Mat :=
  c.details.getD (i - 1) ([], [], [])

/-- Predicate asserting that `m` is a rectangular `h × w` array. -/
def IsRect (m : Mat) (h w : ℕ) : Prop :=
  m.length = h ∧ ∀ row ∈ m, row.length = w

instance (m : Mat) (h w : ℕ) : Decidable (IsRect m h w) := by
  unfold IsRect; infer_instance

/-- Number of zero coefficients in a subband. -/
def zeroCount (m : Mat) : ℕ :=
  m.flatten.countP (fun x => decide (x = 0))

/-- Total number of zero detail coefficients across a detail-level list. -/
def zeroCountLevels (dts : List (Mat × Mat × Mat)) : ℕ :=
  (dts.map (fun lvl => zeroCount lvl.1 + zeroCount lvl.2.1 + zeroCount lvl.2.2)).sum

/-- A concrete instance of the transform interface, used to evaluate the
pipeline on closed inputs: decomposition keeps the image as approximation
and repeats it as every detail subband; reconstruction returns the
approximation. -/
def libTest : PyWtLib where
  wavedec2 := fun m _ l => { approx := m, details := List.replicate l (m, m, m) }
  waverec2 := fun c _ => c.approx
  sqrt2log := fun _ => 1

/-- A second concrete transform instance mirroring the structural fact of
the cascaded 2-D transform that the last (finest, highest-frequency) detail
level of an L-level decomposition is the same subband as the single detail
level of a 1-level decomposition of the same image, while the coarser
levels are different arrays: here every finest level is the all-ones
subband and every coarser level is the all-fives subband. -/
def libFine : PyWtLib where
  wavedec2 := fun m _ l =>
    { approx := m
      details := (List.range l).map
        (fun k => if k + 1 = l then ([[1]], [[1]], [[1]]) else ([[5]], [[5]], [[5]])) }
  waverec2 := fun c _ => c.approx
  sqrt2log := fun _ => 1

/-- The reconstruction the pipeline computes just before the shape fix-up:
the `denoised = pywt.waverec2(coeffs_thresh, wavelet)` of source line 96. -/
def reconstruction (lib : PyWtLib) (image : Mat) (wavelet : String)
    (sigma : Option ℚ) (mode method : String) (levels : ℕ) (tf : ℚ) : Mat :=
  lib.waverec2
    (thresh_coeffs method mode tf (resolve_sigma lib image wavelet sigma)
      (lib.sqrt2log (matSize image)) (lib.wavedec2 image wavelet levels))
    wavelet

/-! ### Helper lemmas -/

theorem shrink_level_adaptive_sigma (mode : String) (tf s v s' v' : ℚ) (i : ℕ)
    (lvl : Mat × Mat × Mat) :
    shrink_level "adaptive" mode tf s v i lvl =
      shrink_level "adaptive" mode tf s' v' i lvl := by
  simp [shrink_level]

theorem thresh_details_congr {me me' mo mo' : String} {tf s v tf' s' v' : ℚ}
    (h : ∀ i lvl, shrink_level me mo tf s v i lvl = shrink_level me' mo' tf' s' v' i lvl) :
    ∀ k dts, thresh_details me mo tf s v k dts = thresh_details me' mo' tf' s' v' k dts := by
  intro k dts
  induction dts generalizing k with
  | nil => rfl
  | cons lvl rest ih => simp [thresh_details, h, ih]

/-! ### C4: the approximation subband is never modified -/

/-- C4: for every image and configuration, the APPROX subband of the
coefficient tree handed to reconstruction — built with exactly the sigma
and size factor `wavelet_denoise` uses — is the APPROX subband produced by
decomposition: the threshold loop copies `coeffs[0]` through unchanged and
the threshold policy is never invoked on it. -/
theorem approx_subband_unchanged (lib : PyWtLib) (image : Mat) (wavelet : String)
    (sigma : Option ℚ) (mode method : String) (levels : ℕ) (threshold_factor : ℚ) :
    (thresh_coeffs method mode threshold_factor
        (resolve_sigma lib image wavelet sigma) (lib.sqrt2log (matSize image))
        (lib.wavedec2 image wavelet levels)).approx
      = (lib.wavedec2 image wavelet levels).approx := rfl

/-! ### C10: with method adaptive, the supplied sigma is never read -/

/-- C10: two adaptive runs that differ only in the supplied sigma (one may
be absent) return identical denoised and identical noise arrays: every
adaptive threshold is derived from the subband's own local sigma only. -/
theorem adaptive_ignores_sigma (lib : PyWtLib) (image : Mat) (wavelet : String)
    (s1 s2 : Option ℚ) (mode : String) (levels : ℕ) (tf : ℚ) :
    wavelet_denoise lib image wavelet s1 mode "adaptive" levels tf
      = wavelet_denoise lib image wavelet s2 mode "adaptive" levels tf
    ∧ extract_noise image (wavelet_denoise lib image wavelet s1 mode "adaptive" levels tf)
      = extract_noise image (wavelet_denoise lib image wavelet s2 mode "adaptive" levels tf) := by
  have key : wavelet_denoise lib image wavelet s1 mode "adaptive" levels tf
      = wavelet_denoise lib image wavelet s2 mode "adaptive" levels tf := by
    simp only [wavelet_denoise, thresh_coeffs]
    rw [thresh_details_congr
      (fun i lvl => shrink_level_adaptive_sigma mode tf
        (resolve_sigma lib image wavelet s1) (lib.sqrt2log (matSize image))
        (resolve_sigma lib image wavelet s2) (lib.sqrt2log (matSize image)) i lvl)
      1 (lib.wavedec2 image wavelet levels).details]
  exact ⟨key, by rw [key]⟩

/-! ### C5: bayes and sure are treated identically -/

/-- C5: for every image and configuration, method "bayes" and method "sure"
produce identical denoised and noise outputs, and each applies the single
universal threshold `sigma × threshold_factor × sqrt2log N` — `N` the total
pixel count of the original image, `sigma` the resolved global estimate —
uniformly to all three orientations of every level. -/
theorem bayes_sure_identical (lib : PyWtLib) (image : Mat) (wavelet : String)
    (sigma : Option ℚ) (mode : String) (levels : ℕ) (tf : ℚ) :
    (wavelet_denoise lib image wavelet sigma mode "bayes" levels tf
       = wavelet_denoise lib image wavelet sigma mode "sure" levels tf)
    ∧ (extract_noise image (wavelet_denoise lib image wavelet sigma mode "bayes" levels tf)
       = extract_noise image (wavelet_denoise lib image wavelet sigma mode "sure" levels tf))
    ∧ (∀ i lvl, shrink_level "bayes" mode tf (resolve_sigma lib image wavelet sigma)
          (lib.sqrt2log (matSize image)) i lvl
        = (pywt_threshold lvl.1
             (resolve_sigma lib image wavelet sigma * tf * lib.sqrt2log (matSize image)) mode,
           pywt_threshold lvl.2.1
             (resolve_sigma lib image wavelet sigma * tf * lib.sqrt2log (matSize image)) mode,
           pywt_threshold lvl.2.2
             (resolve_sigma lib image wavelet sigma * tf * lib.sqrt2log (matSize image)) mode))
    ∧ (∀ i lvl, shrink_level "sure" mode tf (resolve_sigma lib image wavelet sigma)
          (lib.sqrt2log (matSize image)) i lvl
        = (pywt_threshold lvl.1
             (resolve_sigma lib image wavelet sigma * tf * lib.sqrt2log (matSize image)) mode,
           pywt_threshold lvl.2.1
             (resolve_sigma lib image wavelet sigma * tf * lib.sqrt2log (matSize image)) mode,
           pywt_threshold lvl.2.2
             (resolve_sigma lib image wavelet sigma * tf * lib.sqrt2log (matSize image)) mode)) := by
  have hshrink : ∀ i lvl, shrink_level "bayes" mode tf (resolve_sigma lib image wavelet sigma)
      (lib.sqrt2log (matSize image)) i lvl
      = shrink_level "sure" mode tf (resolve_sigma lib image wavelet sigma)
      (lib.sqrt2log (matSize image)) i lvl := by
    intro i lvl; simp [shrink_level]
  have key : wavelet_denoise lib image wavelet sigma mode "bayes" levels tf
      = wavelet_denoise lib image wavelet sigma mode "sure" levels tf := by
    simp only [wavelet_denoise, thresh_coeffs]
    rw [thresh_details_congr hshrink 1 (lib.wavedec2 image wavelet levels).details]
  refine ⟨key, by rw [key], ?_, ?_⟩
  · intro i lvl; simp [shrink_level]
  · intro i lvl; simp [shrink_level]

/-! ### C6: the source performs no configuration validation -/

/-- C6 (counterexample): with an unknown method string ("frobnicate") and a
non-positive threshold_factor (-1) — an invalid configuration per the claim —
the call does not fail with any error: it runs the whole pipeline and
returns a complete denoised array. -/
theorem no_validation_counterexample :
    wavelet_denoise libTest [[1]] "bior4.4" none "soft" "frobnicate" 2 (-1)
      = [[1]] := by decide

/-- C6 (amended): `wavelet_denoise` performs no configuration validation at
all: an unrecognized method value does not raise a structured error but
silently falls through to the default (sure-style) universal-threshold
branch, returning the same complete result as method "sure"; in particular
non-positive `threshold_factor` values are accepted.  (Unknown basis/mode
values and oversized `levels` are likewise passed straight to the wavelet
library, which fails only after transform work has begun.) -/
theorem no_validation_fallthrough (lib : PyWtLib) (image : Mat) (wavelet : String)
    (sigma : Option ℚ) (mode method : String) (levels : ℕ) (tf : ℚ)
    (h1 : method ≠ "adaptive") (h2 : method ≠ "bayes") :
    wavelet_denoise lib image wavelet sigma mode method levels tf
      = wavelet_denoise lib image wavelet sigma mode "sure" levels tf := by
  have key : ∀ i lvl, shrink_level method mode tf (resolve_sigma lib image wavelet sigma)
      (lib.sqrt2log (matSize image)) i lvl
      = shrink_level "sure" mode tf (resolve_sigma lib image wavelet sigma)
      (lib.sqrt2log (matSize image)) i lvl := by
    intro i lvl; simp [shrink_level, h1, h2]
  simp only [wavelet_denoise, thresh_coeffs]
  rw [thresh_details_congr key 1 (lib.wavedec2 image wavelet levels).details]

/-- Witness for the amended C6 theorem at a concrete invalid method. -/
theorem no_validation_fallthrough_witness :
    ("frobnicate" : String) ≠ "adaptive" ∧ ("frobnicate" : String) ≠ "bayes" ∧
    wavelet_denoise libTest [[1]] "bior4.4" none "soft" "frobnicate" 1 (-1)
      = wavelet_denoise libTest [[1]] "bior4.4" none "soft" "sure" 1 (-1) :=
  ⟨by decide, by decide,
    no_validation_fallthrough libTest [[1]] "bior4.4" none "soft" "frobnicate" 1 (-1)
      (by decide) (by decide)⟩

/-! ### Shape machinery for C2 and C3 -/

theorem wavelet_denoise_as_reconstruction (lib : PyWtLib) (image : Mat)
    (wavelet : String) (sigma : Option ℚ) (mode method : String) (levels : ℕ)
    (tf : ℚ) :
    wavelet_denoise lib image wavelet sigma mode method levels tf =
      if shapeOf (reconstruction lib image wavelet sigma mode method levels tf)
          = shapeOf image then
        reconstruction lib image wavelet sigma mode method levels tf
      else
        crop (reconstruction lib image wavelet sigma mode method levels tf)
          (shapeOf image).1 (shapeOf image).2 := rfl

theorem IsRect.length_eq {m : Mat} {h w : ℕ} (hm : IsRect m h w) :
    m.length = h := hm.1

theorem IsRect.row_len {m : Mat} {h w : ℕ} (hm : IsRect m h w) :
    ∀ row ∈ m, row.length = w := hm.2

theorem shapeOf_of_rect {m : Mat} {h w : ℕ} (hm : IsRect m h w) (hh : 0 < h) :
    shapeOf m = (h, w) := by
  obtain ⟨hlen, hrow⟩ := hm
  cases m with
  | nil => simp at hlen; omega
  | cons r rest =>
      simp only [shapeOf, List.headD_cons, hlen]
      have : r.length = w := hrow r (List.mem_cons_self r rest)
      simp [this]

theorem rect_nil_of_zero {m : Mat} {w : ℕ} (hm : IsRect m 0 w) : m = [] := by
  obtain ⟨hlen, _⟩ := hm
  exact List.eq_nil_of_length_eq_zero hlen

theorem crop_rect {m : Mat} {h' w' : ℕ} (hm : IsRect m h' w') (h w : ℕ)
    (hh : h ≤ h') (hw : w ≤ w') : IsRect (crop m h w) h w := by
  obtain ⟨hlen, hrow⟩ := hm
  constructor
  · simp [crop, List.length_take, hlen]; omega
  · intro row hmem
    simp only [crop, List.mem_map] at hmem
    obtain ⟨r, hr, hrw⟩ := hmem
    have : r ∈ m := List.mem_of_mem_take hr
    have := hrow r this
    simp [← hrw, List.length_take, this]; omega

theorem crop_self {m : Mat} {h w : ℕ} (hm : IsRect m h w) : crop m h w = m := by
  obtain ⟨hlen, hrow⟩ := hm
  unfold crop
  rw [List.take_of_length_le (le_of_eq hlen)]
  conv_rhs => rw [← List.map_id m]
  exact List.map_congr_left fun r hr => by
    rw [List.take_of_length_le (le_of_eq (hrow r hr))]; rfl

/-- The core shape fact: under a rectangular image and a rectangular,
at-least-as-large reconstruction, the pipeline output is exactly the
top-left `h × w` crop of the reconstruction, and is rectangular `h × w`. -/
theorem denoise_crop_aux (lib : PyWtLib) (image : Mat) (wavelet : String)
    (sigma : Option ℚ) (mode method : String) (levels : ℕ) (tf : ℚ)
    (h w h' w' : ℕ) (him : IsRect image h w)
    (hrec : IsRect (reconstruction lib image wavelet sigma mode method levels tf) h' w')
    (hh : h ≤ h') (hw : w ≤ w') :
    wavelet_denoise lib image wavelet sigma mode method levels tf
      = crop (reconstruction lib image wavelet sigma mode method levels tf) h w
    ∧ IsRect (wavelet_denoise lib image wavelet sigma mode method levels tf) h w := by
  set R := reconstruction lib image wavelet sigma mode method levels tf with hR
  have hcrop : IsRect (crop R h w) h w := crop_rect hrec h w hh hw
  rw [wavelet_denoise_as_reconstruction, ← hR]
  rcases Nat.eq_zero_or_pos h with h0 | hpos
  · subst h0
    have himg : image = [] := rect_nil_of_zero him
    have : crop R 0 w = [] := by simp [crop]
    by_cases hsh : shapeOf R = shapeOf image
    · have : R = [] := by
        have := congrArg Prod.fst hsh
        simp only [shapeOf, himg] at this
        exact List.eq_nil_of_length_eq_zero this
      constructor
      · simp [hsh, this, crop]
      · rw [if_pos hsh, this]
        exact ⟨rfl, by intro row hrow; simp at hrow⟩
    · rw [if_neg hsh]
      constructor
      · simp [himg, shapeOf, crop]
      · have : (shapeOf image).1 = 0 := by simp [himg, shapeOf]
        rw [this]
        simp only [crop, List.take_zero, List.map_nil]
        exact ⟨rfl, by intro row hrow; simp at hrow⟩
  · have hsh_img : shapeOf image = (h, w) := shapeOf_of_rect him hpos
    by_cases hsh : shapeOf R = shapeOf image
    · rw [if_pos hsh]
      have hRrect : IsRect R h w := by
        have hsh' : shapeOf R = (h, w) := by rw [hsh, hsh_img]
        have h1 : R.length = h := by
          have := congrArg Prod.fst hsh'
          simpa [shapeOf] using this
        have h2 : h' = h := by rw [← hrec.length_eq, h1]
        have h3 : w' = w := by
          subst h2
          rcases R with _ | ⟨r, rest⟩
          · simp at h1; omega
          · have hmem : r ∈ (r :: rest) := List.mem_cons_self r rest
            have hw'' := hrec.row_len r hmem
            have hthis := congrArg Prod.snd hsh'
            simp only [shapeOf, List.headD_cons] at hthis
            rw [← hw'', hthis]
        subst h2; subst h3; exact hrec
      exact ⟨(crop_self hRrect).symm, hRrect⟩
    · rw [if_neg hsh, hsh_img]
      exact ⟨rfl, hcrop⟩

/-! ### Elementwise arithmetic lemmas -/

theorem zipWith_rect (f : ℚ → ℚ → ℚ) :
    ∀ (a b : Mat) (h w : ℕ), IsRect a h w → IsRect b h w →
      IsRect (List.zipWith (List.zipWith f) a b) h w := by
  intro a
  induction a with
  | nil =>
      intro b h w ha hb
      have : h = 0 := by simpa using ha.length_eq.symm
      subst this
      have : b = [] := rect_nil_of_zero hb
      subst this
      exact ⟨rfl, by intro row hrow; simp at hrow⟩
  | cons r a' ih =>
      intro b h w ha hb
      have hlen : a'.length + 1 = h := by simpa using ha.length_eq
      rcases b with _ | ⟨s, b'⟩
      · have : h = 0 := by simpa using hb.length_eq.symm
        omega
      · have ha' : IsRect a' a'.length w :=
          ⟨rfl, fun row hrow => ha.row_len row (List.mem_cons_of_mem r hrow)⟩
        have hb' : IsRect b' a'.length w := by
          refine ⟨?_, fun row hrow => hb.row_len row (List.mem_cons_of_mem s hrow)⟩
          have := hb.length_eq
          simp at this
          omega
        have hrs : (List.zipWith f r s).length = w := by
          rw [List.length_zipWith]
          have h1 := ha.row_len r (List.mem_cons_self r a')
          have h2 := hb.row_len s (List.mem_cons_self s b')
          simp [h1, h2]
        have hrest := ih b' a'.length w ha' hb'
        constructor
        · simp only [List.zipWith_cons_cons, List.length_cons, hrest.length_eq]
          omega
        · intro row hrow
          simp only [List.zipWith_cons_cons, List.mem_cons] at hrow
          rcases hrow with hrow | hrow
          · rw [hrow]; exact hrs
          · exact hrest.row_len row hrow

theorem row_add_sub :
    ∀ (r s : List ℚ), r.length = s.length →
      List.zipWith (fun x y => x + y) s (List.zipWith (fun x y => x - y) r s) = r := by
  intro r
  induction r with
  | nil => intro s h; simp
  | cons x r' ih =>
      intro s h
      rcases s with _ | ⟨y, s'⟩
      · simp at h
      · simp only [List.zipWith_cons_cons, List.cons.injEq]
        exact ⟨by ring, ih s' (by simpa using h)⟩

theorem mat_add_sub :
    ∀ (o d : Mat) (h w : ℕ), IsRect o h w → IsRect d h w →
      matAdd d (matSub o d) = o := by
  intro o
  induction o with
  | nil =>
      intro d h w ho hd
      have : h = 0 := by simpa using ho.length_eq.symm
      subst this
      have : d = [] := rect_nil_of_zero hd
      subst this
      rfl
  | cons r o' ih =>
      intro d h w ho hd
      rcases d with _ | ⟨s, d'⟩
      · exfalso
        have h1 := ho.length_eq
        have h2 := hd.length_eq
        simp at h1 h2
        omega
      · have ho' : IsRect o' o'.length w :=
          ⟨rfl, fun row hrow => ho.row_len row (List.mem_cons_of_mem r hrow)⟩
        have hd' : IsRect d' o'.length w := by
          refine ⟨?_, fun row hrow => hd.row_len row (List.mem_cons_of_mem s hrow)⟩
          have h1 := ho.length_eq
          have h2 := hd.length_eq
          simp at h1 h2
          omega
        have hrlen : r.length = s.length := by
          rw [ho.row_len r (List.mem_cons_self r o'),
              hd.row_len s (List.mem_cons_self s d')]
        simp only [matAdd, matSub, List.zipWith_cons_cons, List.cons.injEq]
        exact ⟨row_add_sub r s hrlen, ih d' o'.length w ho' hd'⟩

theorem getD_zipWith {α β γ : Type} (f : α → β → γ) (da : α) (db : β) (dc : γ)
    (hf : f da db = dc) :
    ∀ (a : List α) (b : List β) (i : ℕ), a.length = b.length →
      (List.zipWith f a b).getD i dc = f (a.getD i da) (b.getD i db) := by
  intro a
  induction a with
  | nil =>
      intro b i h
      have : b = [] := List.eq_nil_of_length_eq_zero (by simpa using h.symm)
      subst this
      simp [hf]
  | cons x a' ih =>
      intro b i h
      rcases b with _ | ⟨y, b'⟩
      · simp at h
      · rcases i with _ | i
        · simp
        · simp only [List.zipWith_cons_cons, List.getD_cons_succ]
          exact ih b' i (by simpa using h)

theorem rect_getD_len {m : Mat} {h w : ℕ} (hm : IsRect m h w) (i : ℕ) :
    (m.getD i []).length = if i < h then w else 0 := by
  by_cases hi : i < m.length
  · rw [List.getD_eq_getElem m [] hi]
    have hmem := List.getElem_mem hi
    rw [hm.row_len _ hmem]
    rw [if_pos (hm.length_eq ▸ hi)]
  · rw [List.getD_eq_default m [] (le_of_not_lt hi)]
    have hnot : ¬ i < h := by rw [← hm.length_eq]; exact hi
    simp [hnot]

/-! ### C3: shape invariance and top-left crop -/

/-- C3: for a rectangular `h × w` input and any configuration, whenever the
inverse transform returns a rectangular array at least as large in both
axes (as `pywt.waverec2` does), the returned denoised and noise arrays are
both exactly `h × w`, and the shape fix-up is precisely the deterministic
top-left crop `denoised[0:h, 0:w]` of the reconstruction — never padding,
never a centered crop. -/
theorem shape_invariance (lib : PyWtLib) (image : Mat) (wavelet : String)
    (sigma : Option ℚ) (mode method : String) (levels : ℕ) (tf : ℚ)
    (h w h' w' : ℕ) (him : IsRect image h w)
    (hrec : IsRect (reconstruction lib image wavelet sigma mode method levels tf) h' w')
    (hh : h ≤ h') (hw : w ≤ w') :
    IsRect (wavelet_denoise lib image wavelet sigma mode method levels tf) h w
    ∧ IsRect (extract_noise image
        (wavelet_denoise lib image wavelet sigma mode method levels tf)) h w
    ∧ wavelet_denoise lib image wavelet sigma mode method levels tf
        = crop (reconstruction lib image wavelet sigma mode method levels tf) h w := by
  obtain ⟨hcrop, hrect⟩ :=
    denoise_crop_aux lib image wavelet sigma mode method levels tf h w h' w' him hrec hh hw
  refine ⟨hrect, ?_, hcrop⟩
  simp only [extract_noise, matSub]
  exact zipWith_rect (fun x y => x - y) image
    (wavelet_denoise lib image wavelet sigma mode method levels tf) h w him hrect

/-- Witness for C3 on a concrete 2 × 1 image and transform instance. -/
theorem shape_invariance_witness :
    IsRect [[(2 : ℚ)], [(4 : ℚ)]] 2 1
    ∧ IsRect (reconstruction libTest [[2], [4]] "bior4.4" none "soft" "adaptive" 3 1) 2 1
    ∧ (IsRect (wavelet_denoise libTest [[2], [4]] "bior4.4" none "soft" "adaptive" 3 1) 2 1
       ∧ IsRect (extract_noise [[2], [4]]
           (wavelet_denoise libTest [[2], [4]] "bior4.4" none "soft" "adaptive" 3 1)) 2 1
       ∧ wavelet_denoise libTest [[2], [4]] "bior4.4" none "soft" "adaptive" 3 1
           = crop (reconstruction libTest [[2], [4]] "bior4.4" none "soft" "adaptive" 3 1) 2 1) :=
  ⟨by decide, by decide,
    shape_invariance libTest [[2], [4]] "bior4.4" none "soft" "adaptive" 3 1
      2 1 2 1 (by decide) (by decide) (by decide) (by decide)⟩

/-! ### C2: the noise residual is exactly original minus denoised -/

/-- C2: for every input image and configuration (under the same
rectangularity facts about the external reconstruction), the returned
noise array is elementwise the original minus the denoised output — no
smoothing or further filtering — and consequently denoised + noise
reproduces the original image exactly. -/
theorem noise_additivity (lib : PyWtLib) (image : Mat) (wavelet : String)
    (sigma : Option ℚ) (mode method : String) (levels : ℕ) (tf : ℚ)
    (h w h' w' : ℕ) (him : IsRect image h w)
    (hrec : IsRect (reconstruction lib image wavelet sigma mode method levels tf) h' w')
    (hh : h ≤ h') (hw : w ≤ w') :
    (∀ i j : ℕ,
      ((extract_noise image
          (wavelet_denoise lib image wavelet sigma mode method levels tf)).getD i []).getD j 0
        = ((image.getD i []).getD j 0)
          - (((wavelet_denoise lib image wavelet sigma mode method levels tf).getD i []).getD j 0))
    ∧ matAdd (wavelet_denoise lib image wavelet sigma mode method levels tf)
        (extract_noise image (wavelet_denoise lib image wavelet sigma mode method levels tf))
      = image := by
  obtain ⟨-, hrect⟩ :=
    denoise_crop_aux lib image wavelet sigma mode method levels tf h w h' w' him hrec hh hw
  constructor
  · intro i j
    simp only [extract_noise, matSub]
    have houter : (List.zipWith (List.zipWith (fun x y => x - y)) image
        (wavelet_denoise lib image wavelet sigma mode method levels tf)).getD i []
        = List.zipWith (fun x y => x - y) (image.getD i [])
            ((wavelet_denoise lib image wavelet sigma mode method levels tf).getD i []) := by
      exact getD_zipWith (List.zipWith (fun x y => x - y)) [] [] [] rfl image
        (wavelet_denoise lib image wavelet sigma mode method levels tf) i
        (by rw [him.length_eq, hrect.length_eq])
    rw [houter]
    exact getD_zipWith (fun x y => x - y) 0 0 0 (by ring) _ _ j
      (by rw [rect_getD_len him i, rect_getD_len hrect i])
  · simp only [extract_noise]
    exact mat_add_sub image
      (wavelet_denoise lib image wavelet sigma mode method levels tf) h w him hrect

/-- Witness for C2 on a concrete 1 × 1 image and transform instance. -/
theorem noise_additivity_witness :
    IsRect [[(3 : ℚ)]] 1 1
    ∧ IsRect (reconstruction libTest [[3]] "bior4.4" (some 2) "hard" "bayes" 1 1) 1 1
    ∧ matAdd (wavelet_denoise libTest [[3]] "bior4.4" (some 2) "hard" "bayes" 1 1)
        (extract_noise [[3]]
          (wavelet_denoise libTest [[3]] "bior4.4" (some 2) "hard" "bayes" 1 1))
      = [[3]] :=
  ⟨by decide, by decide,
    (noise_additivity libTest [[3]] "bior4.4" (some 2) "hard" "bayes" 1 1
      1 1 1 1 (by decide) (by decide) (by decide) (by decide)).2⟩

/-! ### C1: the adaptive per-subband threshold formula -/

theorem thresh_details_getD (me mo : String) (tf s v : ℚ) :
    ∀ (dts : List (Mat × Mat × Mat)) (k j : ℕ), j < dts.length →
      (thresh_details me mo tf s v k dts).getD j ([], [], [])
        = shrink_level me mo tf s v (k + j) (dts.getD j ([], [], [])) := by
  intro dts
  induction dts with
  | nil => intro k j h; simp at h
  | cons lvl rest ih =>
      intro k j h
      cases j with
      | zero => simp [thresh_details]
      | succ j =>
          simp only [thresh_details, List.getD_cons_succ]
          rw [ih (k + 1) j (by simpa using h)]
          congr 1
          omega

/-- C1: with method "adaptive", the threshold applied to the detail subband
at level `i` (1 = coarsest) and each orientation is
`local_sigma × threshold_factor × 0.5^(i-1) × m`, where `local_sigma` is the
median of that subband's own absolute coefficients divided by 0.6745, and
`m = 2.0` for the DIAGONAL component, `1.5` for HORIZONTAL and VERTICAL. -/
theorem adaptive_threshold_formula (lib : PyWtLib) (image : Mat) (wavelet : String)
    (sigma : Option ℚ) (mode : String) (levels : ℕ) (tf : ℚ) (i : ℕ)
    (h1 : 1 ≤ i) (h2 : i ≤ (lib.wavedec2 image wavelet levels).details.length) :
    detailAt (thresh_coeffs "adaptive" mode tf (resolve_sigma lib image wavelet sigma)
        (lib.sqrt2log (matSize image)) (lib.wavedec2 image wavelet levels)) i
      = (pywt_threshold (detailAt (lib.wavedec2 image wavelet levels) i).1
           (local_sigma_of (detailAt (lib.wavedec2 image wavelet levels) i).1
             * tf * (0.5 : ℚ) ^ (i - 1) * 1.5) mode,
         pywt_threshold (detailAt (lib.wavedec2 image wavelet levels) i).2.1
           (local_sigma_of (detailAt (lib.wavedec2 image wavelet levels) i).2.1
             * tf * (0.5 : ℚ) ^ (i - 1) * 1.5) mode,
         pywt_threshold (detailAt (lib.wavedec2 image wavelet levels) i).2.2
           (local_sigma_of (detailAt (lib.wavedec2 image wavelet levels) i).2.2
             * tf * (0.5 : ℚ) ^ (i - 1) * 2) mode) := by
  unfold detailAt thresh_coeffs
  rw [thresh_details_getD "adaptive" mode tf (resolve_sigma lib image wavelet sigma)
    (lib.sqrt2log (matSize image)) (lib.wavedec2 image wavelet levels).details 1 (i - 1)
    (by omega)]
  have hi : 1 + (i - 1) = i := by omega
  rw [hi]
  simp [shrink_level, adaptive_threshold, mul_assoc]

/-- Witness for C1 at a concrete image, transform instance, and level 1. -/
theorem adaptive_threshold_formula_witness :
    1 ≤ (libTest.wavedec2 [[(1 : ℚ)]] "bior4.4" 1).details.length
    ∧ detailAt (thresh_coeffs "adaptive" "soft" 1
          (resolve_sigma libTest [[1]] "bior4.4" none)
          (libTest.sqrt2log (matSize [[1]])) (libTest.wavedec2 [[1]] "bior4.4" 1)) 1
        = (pywt_threshold (detailAt (libTest.wavedec2 [[1]] "bior4.4" 1) 1).1
             (local_sigma_of (detailAt (libTest.wavedec2 [[1]] "bior4.4" 1) 1).1
               * 1 * (0.5 : ℚ) ^ (1 - 1) * 1.5) "soft",
           pywt_threshold (detailAt (libTest.wavedec2 [[1]] "bior4.4" 1) 1).2.1
             (local_sigma_of (detailAt (libTest.wavedec2 [[1]] "bior4.4" 1) 1).2.1
               * 1 * (0.5 : ℚ) ^ (1 - 1) * 1.5) "soft",
           pywt_threshold (detailAt (libTest.wavedec2 [[1]] "bior4.4" 1) 1).2.2
             (local_sigma_of (detailAt (libTest.wavedec2 [[1]] "bior4.4" 1) 1).2.2
               * 1 * (0.5 : ℚ) ^ (1 - 1) * 2) "soft") :=
  ⟨by decide,
    adaptive_threshold_formula libTest [[1]] "bior4.4" none "soft" 1 1 1
      (by decide) (by decide)⟩

/-! ### C8: one global sigma estimate, used by the non-adaptive methods -/

/-- C8 (amended): when no sigma is supplied, the single global estimate is
computed once, before the main decomposition, from the detail level of a
separate preliminary 1-level decomposition — the finest-scale
(highest-frequency) subband, not the main decomposition's coarsest detail
level — as `median(|all three orientation subbands|) / 0.6745`; it is
exactly the value the pipeline resolves sigma to, and the non-adaptive
(bayes / sure) branches turn this one estimate into the threshold
`sigma × threshold_factor × visuT` at every level alike. -/
theorem global_sigma_once (lib : PyWtLib) (image : Mat) (wavelet : String)
    (lvl : Mat × Mat × Mat)
    (hdet : (lib.wavedec2 image wavelet 1).details = [lvl]) :
    estimate_global_sigma lib image wavelet
        = median ((matAbs lvl.1 ++ matAbs lvl.2.1) ++ matAbs lvl.2.2) / 0.6745
    ∧ resolve_sigma lib image wavelet none = estimate_global_sigma lib image wavelet
    ∧ (∀ mode tf visuT i l2, shrink_level "bayes" mode tf
          (estimate_global_sigma lib image wavelet) visuT i l2
        = (pywt_threshold l2.1 (estimate_global_sigma lib image wavelet * tf * visuT) mode,
           pywt_threshold l2.2.1 (estimate_global_sigma lib image wavelet * tf * visuT) mode,
           pywt_threshold l2.2.2 (estimate_global_sigma lib image wavelet * tf * visuT) mode))
    ∧ (∀ mode tf visuT i l2, shrink_level "sure" mode tf
          (estimate_global_sigma lib image wavelet) visuT i l2
        = (pywt_threshold l2.1 (estimate_global_sigma lib image wavelet * tf * visuT) mode,
           pywt_threshold l2.2.1 (estimate_global_sigma lib image wavelet * tf * visuT) mode,
           pywt_threshold l2.2.2 (estimate_global_sigma lib image wavelet * tf * visuT) mode)) := by
  refine ⟨?_, rfl, ?_, ?_⟩
  · simp only [estimate_global_sigma]
    rw [hdet]
    rfl
  · intro mode tf visuT i l2; simp [shrink_level]
  · intro mode tf visuT i l2; simp [shrink_level]

/-- Witness for C8 at a concrete image and transform instance. -/
theorem global_sigma_once_witness :
    (libTest.wavedec2 [[(1 : ℚ)]] "bior4.4" 1).details = [([[1]], [[1]], [[1]])]
    ∧ estimate_global_sigma libTest [[1]] "bior4.4"
        = median ((matAbs [[1]] ++ matAbs [[1]]) ++ matAbs [[1]]) / 0.6745 :=
  ⟨by decide,
    (global_sigma_once libTest [[1]] "bior4.4" ([[1]], [[1]], [[1]]) (by decide)).1⟩

/-! ### C9: sigma on an all-equal subband (corrected) -/

theorem mem_insort (a x : ℚ) : ∀ (l : List ℚ), a ∈ insort x l ↔ a = x ∨ a ∈ l := by
  intro l
  induction l with
  | nil => simp [insort]
  | cons y ys ih =>
      simp only [insort]
      split
      · simp
      · simp only [List.mem_cons, ih]
        tauto

theorem mem_sortAsc (a : ℚ) : ∀ (l : List ℚ), a ∈ sortAsc l ↔ a ∈ l := by
  intro l
  induction l with
  | nil => simp [sortAsc]
  | cons x xs ih => simp [sortAsc, mem_insort, ih]

theorem median_of_all_zero {l : List ℚ} (h : ∀ x ∈ l, x = 0) : median l = 0 := by
  have hg : ∀ k, (sortAsc l).getD k 0 = 0 := by
    intro k
    by_cases hk : k < (sortAsc l).length
    · rw [List.getD_eq_getElem _ 0 hk]
      exact h _ ((mem_sortAsc _ l).mp (List.getElem_mem hk))
    · exact List.getD_eq_default _ 0 (le_of_not_lt hk)
  simp only [median]
  split
  · exact hg _
  · rw [hg, hg]; norm_num

theorem qsign_mul_abs (x : ℚ) : qsign x * |x| = x := by
  unfold qsign
  rcases lt_trichotomy x 0 with hx | hx | hx
  · rw [if_neg (by linarith), if_pos hx, abs_of_neg hx]; ring
  · simp [hx]
  · rw [if_pos hx, abs_of_pos hx]; ring

theorem threshold1_zero_id (mode : String) (hm : mode = "soft" ∨ mode = "hard")
    (x : ℚ) : threshold1 mode 0 x = x := by
  rcases hm with hm | hm <;> subst hm <;> unfold threshold1
  · rw [if_pos rfl, sub_zero, max_eq_left (abs_nonneg x)]
    exact qsign_mul_abs x
  · rw [if_neg (by decide), if_pos rfl]
    by_cases hx : x = 0
    · simp [hx]
    · rw [if_pos (abs_pos.mpr hx)]

theorem pywt_threshold_zero_id (mode : String) (hm : mode = "soft" ∨ mode = "hard")
    (m : Mat) : pywt_threshold m 0 mode = m := by
  have hfun : threshold1 mode 0 = fun x => x := funext (threshold1_zero_id mode hm)
  simp [pywt_threshold, hfun]

/-- C9 (counterexample): a subband whose values are all equal — to 1 — has
estimated sigma `1 / 0.6745 ≠ 0` (the estimator takes the median of raw
absolute values, subtracting no centre), and the adaptive shrinkage derived
from it (threshold_factor 1, coarsest level, soft mode, horizontal
orientation) does not leave the subband unchanged: it zeroes it. -/
theorem degenerate_sigma_counterexample :
    local_sigma_of [[1]] ≠ 0
    ∧ pywt_threshold [[1]] (adaptive_threshold 1 0 [[1]]) "soft" ≠ [[1]] := by
  have hmed : median (matAbs [[1]]) = 1 := by
    norm_num [median, matAbs, sortAsc, insort]
  have hls : local_sigma_of [[1]] = 1 / 0.6745 := by
    rw [local_sigma_of, hmed]
  have hat : adaptive_threshold 1 0 [[1]] = 1 / 0.6745 * 1 * 1.5 := by
    simp only [adaptive_threshold, hls]
    norm_num
  have ht1 : threshold1 "soft" (1 / 0.6745 * 1 * 1.5) 1 = 0 := by
    unfold threshold1
    rw [if_pos rfl, abs_one,
      max_eq_right (by norm_num : (1 : ℚ) - 1 / 0.6745 * 1 * 1.5 ≤ 0)]
    exact mul_zero _
  constructor
  · rw [hls]; norm_num
  · rw [hat]
    simp only [pywt_threshold, List.map_cons, List.map_nil, ht1]
    decide

/-- C9 (amended): for a subband of all-zero values (the estimator subtracts
no median, so only the zero subband is degenerate) the estimated sigma is 0,
every adaptive threshold derived from it is 0, and shrinkage is the identity
on it — a handled, non-fatal outcome, with no error path in the code; and a
zero threshold is an identity for soft and hard shrinkage on any subband. -/
theorem degenerate_sigma_amended (m : Mat) (hz : ∀ x ∈ m.flatten, x = 0) :
    local_sigma_of m = 0
    ∧ (∀ lf j, adaptive_threshold lf j m = 0)
    ∧ (∀ mode, mode = "soft" ∨ mode = "hard" →
        (∀ lf j, pywt_threshold m (adaptive_threshold lf j m) mode = m)
        ∧ ∀ m' : Mat, pywt_threshold m' 0 mode = m') := by
  have habs : ∀ x ∈ matAbs m, x = 0 := by
    intro x hx
    simp only [matAbs, List.mem_map] at hx
    obtain ⟨y, hy, hxy⟩ := hx
    rw [← hxy, hz y hy, abs_zero]
  have hls : local_sigma_of m = 0 := by
    unfold local_sigma_of
    rw [median_of_all_zero habs]
    norm_num
  have hat : ∀ lf j, adaptive_threshold lf j m = 0 := by
    intro lf j
    simp [adaptive_threshold, hls]
  refine ⟨hls, hat, ?_⟩
  intro mode hm
  refine ⟨?_, pywt_threshold_zero_id mode hm⟩
  intro lf j
  rw [hat lf j]
  exact pywt_threshold_zero_id mode hm m

/-- Witness for the amended C9 theorem on a concrete all-zero subband. -/
theorem degenerate_sigma_amended_witness :
    (∀ x ∈ ([[0, 0], [0, 0]] : Mat).flatten, x = 0)
    ∧ local_sigma_of [[0, 0], [0, 0]] = 0 :=
  ⟨by decide, (degenerate_sigma_amended [[0, 0], [0, 0]] (by decide)).1⟩

/-! ### C7: monotone suppression in the threshold factor -/

theorem median_nonneg {l : List ℚ} (h : ∀ x ∈ l, 0 ≤ x) : 0 ≤ median l := by
  have hg : ∀ k, 0 ≤ (sortAsc l).getD k 0 := by
    intro k
    by_cases hk : k < (sortAsc l).length
    · rw [List.getD_eq_getElem _ 0 hk]
      exact h _ ((mem_sortAsc _ l).mp (List.getElem_mem hk))
    · rw [List.getD_eq_default _ 0 (le_of_not_lt hk)]
  simp only [median]
  split
  · exact hg _
  · exact div_nonneg (add_nonneg (hg _) (hg _)) (by norm_num)

theorem local_sigma_nonneg (m : Mat) : 0 ≤ local_sigma_of m := by
  unfold local_sigma_of
  apply div_nonneg _ (by norm_num)
  apply median_nonneg
  intro x hx
  simp only [matAbs, List.mem_map] at hx
  obtain ⟨y, _, hxy⟩ := hx
  rw [← hxy]
  exact abs_nonneg y

theorem qsign_eq_zero_iff (x : ℚ) : qsign x = 0 ↔ x = 0 := by
  unfold qsign
  rcases lt_trichotomy x 0 with hx | hx | hx
  · rw [if_neg (by linarith), if_pos hx]
    constructor
    · intro h; norm_num at h
    · intro h; linarith
  · simp [hx]
  · rw [if_pos hx]
    constructor
    · intro h; norm_num at h
    · intro h; linarith

theorem threshold1_eq_zero (mode : String) (hm : mode = "soft" ∨ mode = "hard")
    (t x : ℚ) (ht : 0 ≤ t) : threshold1 mode t x = 0 ↔ |x| ≤ t := by
  rcases hm with hm | hm <;> subst hm <;> unfold threshold1
  · rw [if_pos rfl, mul_eq_zero, qsign_eq_zero_iff]
    constructor
    · rintro (hx | hx)
      · rw [hx, abs_zero]; exact ht
      · have := max_eq_right_iff.mp hx
        linarith
    · intro hx
      right
      exact max_eq_right (by linarith)
  · rw [if_neg (by decide), if_pos rfl]
    by_cases hlt : t < |x|
    · rw [if_pos hlt]
      constructor
      · intro hx0; rw [hx0, abs_zero]; exact ht
      · intro hx; exact absurd hx (not_le.mpr hlt)
    · rw [if_neg hlt]
      exact ⟨fun _ => le_of_not_lt hlt, fun _ => rfl⟩

theorem zeroCount_pywt_mono (m : Mat) (mode : String)
    (hm : mode = "soft" ∨ mode = "hard") (t1 t2 : ℚ) (h0 : 0 ≤ t1)
    (h12 : t1 ≤ t2) :
    zeroCount (pywt_threshold m t1 mode) ≤ zeroCount (pywt_threshold m t2 mode) := by
  unfold zeroCount pywt_threshold
  rw [← List.map_flatten, ← List.map_flatten, List.countP_map, List.countP_map]
  apply List.countP_mono_left
  intro x _ hx
  simp only [Function.comp, decide_eq_true_eq] at hx ⊢
  rw [threshold1_eq_zero mode hm t2 x (le_trans h0 h12)]
  rw [threshold1_eq_zero mode hm t1 x h0] at hx
  exact le_trans hx h12

theorem adaptive_threshold_nonneg (lf : ℚ) (hlf : 0 ≤ lf) (j : ℕ) (m : Mat) :
    0 ≤ adaptive_threshold lf j m := by
  have hls := local_sigma_nonneg m
  simp only [adaptive_threshold]
  split
  · exact mul_nonneg (mul_nonneg hls hlf) (by norm_num)
  · exact mul_nonneg (mul_nonneg hls hlf) (by norm_num)

theorem adaptive_threshold_mono (lf1 lf2 : ℚ) (_h1 : 0 ≤ lf1) (h12 : lf1 ≤ lf2)
    (j : ℕ) (m : Mat) : adaptive_threshold lf1 j m ≤ adaptive_threshold lf2 j m := by
  have hls := local_sigma_nonneg m
  simp only [adaptive_threshold]
  split
  · nlinarith
  · nlinarith

theorem zeroCountLevels_cons (x : Mat × Mat × Mat) (xs : List (Mat × Mat × Mat)) :
    zeroCountLevels (x :: xs)
      = (zeroCount x.1 + zeroCount x.2.1 + zeroCount x.2.2) + zeroCountLevels xs := rfl

theorem shrink_level_zero_mono (mode : String) (hm : mode = "soft" ∨ mode = "hard")
    (tf1 tf2 : ℚ) (h0 : 0 ≤ tf1) (h12 : tf1 ≤ tf2) (s1 v1 s2 v2 : ℚ) (i : ℕ)
    (lvl : Mat × Mat × Mat) :
    zeroCount (shrink_level "adaptive" mode tf1 s1 v1 i lvl).1
      + zeroCount (shrink_level "adaptive" mode tf1 s1 v1 i lvl).2.1
      + zeroCount (shrink_level "adaptive" mode tf1 s1 v1 i lvl).2.2
    ≤ zeroCount (shrink_level "adaptive" mode tf2 s2 v2 i lvl).1
      + zeroCount (shrink_level "adaptive" mode tf2 s2 v2 i lvl).2.1
      + zeroCount (shrink_level "adaptive" mode tf2 s2 v2 i lvl).2.2 := by
  have hp : (0 : ℚ) < (0.5 : ℚ) ^ (i - 1) := pow_pos (by norm_num) _
  have hlf0 : 0 ≤ tf1 * (0.5 : ℚ) ^ (i - 1) := mul_nonneg h0 hp.le
  have hlf12 : tf1 * (0.5 : ℚ) ^ (i - 1) ≤ tf2 * (0.5 : ℚ) ^ (i - 1) :=
    mul_le_mul_of_nonneg_right h12 hp.le
  simp only [shrink_level, if_pos]
  refine Nat.add_le_add (Nat.add_le_add ?_ ?_) ?_
  · exact zeroCount_pywt_mono lvl.1 mode hm _ _
      (adaptive_threshold_nonneg _ hlf0 0 lvl.1)
      (adaptive_threshold_mono _ _ hlf0 hlf12 0 lvl.1)
  · exact zeroCount_pywt_mono lvl.2.1 mode hm _ _
      (adaptive_threshold_nonneg _ hlf0 1 lvl.2.1)
      (adaptive_threshold_mono _ _ hlf0 hlf12 1 lvl.2.1)
  · exact zeroCount_pywt_mono lvl.2.2 mode hm _ _
      (adaptive_threshold_nonneg _ hlf0 2 lvl.2.2)
      (adaptive_threshold_mono _ _ hlf0 hlf12 2 lvl.2.2)

theorem zeroCountLevels_mono (mode : String) (hm : mode = "soft" ∨ mode = "hard")
    (tf1 tf2 : ℚ) (h0 : 0 ≤ tf1) (h12 : tf1 ≤ tf2) (s1 v1 s2 v2 : ℚ) :
    ∀ (k : ℕ) (dts : List (Mat × Mat × Mat)),
      zeroCountLevels (thresh_details "adaptive" mode tf1 s1 v1 k dts)
        ≤ zeroCountLevels (thresh_details "adaptive" mode tf2 s2 v2 k dts) := by
  intro k dts
  induction dts generalizing k with
  | nil => simp [thresh_details]
  | cons lvl rest ih =>
      simp only [thresh_details]
      rw [zeroCountLevels_cons, zeroCountLevels_cons]
      exact Nat.add_le_add
        (shrink_level_zero_mono mode hm tf1 tf2 h0 h12 s1 v1 s2 v2 k lvl)
        (ih (k + 1))

/-- C7: for a fixed image, basis, levels, mode and sigma option, with
method "adaptive": raising the threshold factor from `t1 > 0` to `t2 ≥ t1`
never decreases the total number of zero detail coefficients in the
shrunk coefficient tree the pipeline builds. -/
theorem monotone_suppression (lib : PyWtLib) (image : Mat) (wavelet : String)
    (sigma : Option ℚ) (mode : String) (levels : ℕ) (t1 t2 : ℚ)
    (hmode : mode = "soft" ∨ mode = "hard") (h0 : 0 < t1) (h12 : t1 ≤ t2) :
    zeroCountLevels (thresh_coeffs "adaptive" mode t1
        (resolve_sigma lib image wavelet sigma) (lib.sqrt2log (matSize image))
        (lib.wavedec2 image wavelet levels)).details
      ≤ zeroCountLevels (thresh_coeffs "adaptive" mode t2
        (resolve_sigma lib image wavelet sigma) (lib.sqrt2log (matSize image))
        (lib.wavedec2 image wavelet levels)).details := by
  unfold thresh_coeffs
  exact zeroCountLevels_mono mode hmode t1 t2 h0.le h12 _ _ _ _ 1
    (lib.wavedec2 image wavelet levels).details

/-- Witness for C7 at concrete threshold factors 1 ≤ 2. -/
theorem monotone_suppression_witness :
    (("soft" : String) = "soft" ∨ ("soft" : String) = "hard")
    ∧ (0 : ℚ) < 1 ∧ (1 : ℚ) ≤ 2
    ∧ zeroCountLevels (thresh_coeffs "adaptive" "soft" 1
        (resolve_sigma libTest [[1]] "bior4.4" none) (libTest.sqrt2log (matSize [[1]]))
        (libTest.wavedec2 [[1]] "bior4.4" 1)).details
      ≤ zeroCountLevels (thresh_coeffs "adaptive" "soft" 2
        (resolve_sigma libTest [[1]] "bior4.4" none) (libTest.sqrt2log (matSize [[1]]))
        (libTest.wavedec2 [[1]] "bior4.4" 1)).details :=
  ⟨Or.inl rfl, by norm_num, by norm_num,
    monotone_suppression libTest [[1]] "bior4.4" none "soft" 1 1 2
      (Or.inl rfl) (by norm_num) (by norm_num)⟩

/-- C8 (counterexample): with a transform exhibiting the cascade's
structural fact that an L-level decomposition's last (finest) detail level
is the 1-level decomposition's detail level while coarser levels are
different arrays, the global estimate the code computes differs from
`median(|coefficients of the coarsest detail level of the main
decomposition|) / 0.6745` (here levels = 2): it equals that expression for
the finest detail level instead — the claim labels the wrong subband. -/
theorem global_sigma_counterexample :
    estimate_global_sigma libFine [[0]] "bior4.4"
      ≠ median ((matAbs (detailAt (libFine.wavedec2 [[0]] "bior4.4" 2) 1).1
            ++ matAbs (detailAt (libFine.wavedec2 [[0]] "bior4.4" 2) 1).2.1)
            ++ matAbs (detailAt (libFine.wavedec2 [[0]] "bior4.4" 2) 1).2.2) / 0.6745
    ∧ estimate_global_sigma libFine [[0]] "bior4.4"
        = median ((matAbs (detailAt (libFine.wavedec2 [[0]] "bior4.4" 2) 2).1
              ++ matAbs (detailAt (libFine.wavedec2 [[0]] "bior4.4" 2) 2).2.1)
              ++ matAbs (detailAt (libFine.wavedec2 [[0]] "bior4.4" 2) 2).2.2) / 0.6745 := by
  have hm1 : median ((matAbs [[(1 : ℚ)]] ++ matAbs [[1]]) ++ matAbs [[1]]) = 1 := by
    norm_num [matAbs, median, sortAsc, insort]
  have hm5 : median ((matAbs [[(5 : ℚ)]] ++ matAbs [[5]]) ++ matAbs [[5]]) = 5 := by
    norm_num [matAbs, median, sortAsc, insort]
  have hest : estimate_global_sigma libFine [[0]] "bior4.4" = 1 / 0.6745 := by
    show median ((matAbs [[1]] ++ matAbs [[1]]) ++ matAbs [[1]]) / 0.6745 = 1 / 0.6745
    rw [hm1]
  constructor
  · rw [hest]
    show (1 : ℚ) / 0.6745
      ≠ median ((matAbs [[5]] ++ matAbs [[5]]) ++ matAbs [[5]]) / 0.6745
    rw [hm5]
    norm_num
  · rw [hest]
    show (1 : ℚ) / 0.6745
      = median ((matAbs [[1]] ++ matAbs [[1]]) ++ matAbs [[1]]) / 0.6745
    rw [hm1]
